import Mathlib

/-!
Verification of the reqwest response decoder (`src/async_impl/decoder.rs`).

The decoder wraps a stream of body chunks and produces a stream of
decompressed chunks.  This file embeds the decoder shallowly:

* `HeaderMap` models hyper's ordered multimap of headers (insertion order,
  repeated names allowed; `get` returns the first value, `remove` drops all
  values of a name).
* `Body` models the underlying chunk stream as the finite schedule of what
  its successive polls return: `notReady` (the stream returned
  `Poll::Pending`), `chunk c` (one data chunk), `err e` (a transport error);
  once the schedule is exhausted every further poll reports end-of-stream.
* `detect` embeds `Decoder::detect`, `pendingPoll` embeds
  `impl Future for Pending`, `Peekable` embeds
  `futures::stream::Peekable<BodyBytes>`, and `pollNext` embeds
  `impl Stream for Decoder`.
* The external gzip decompressor (`async_compression::stream::GzipDecoder`)
  is an external collaborator of this repository; it is modelled as an
  abstract incremental `Codec` whose documented contract
  (`Codec.Correct`) is exactly the round-trip property of gzip.
-/

namespace ReqwestDecoder

/-- A chunk of body bytes (`bytes::Bytes` / `reqwest::async_impl::Chunk`),
modelled as a list of byte values. -/
abbrev Chunk := List Nat

/-- What one poll of the underlying transport body returns: `Poll::Pending`,
one `Ok` chunk, or one transport error.  End-of-stream is the exhaustion of
the schedule. -/
inductive BodyEvent where
  | notReady
  | chunk (c : Chunk)
  | err (e : Nat)
deriving DecidableEq, Repr

/-- The underlying body stream, as the finite schedule of its poll results. -/
abbrev Body := List BodyEvent

/-- Hyper's `HeaderMap`: an ordered multimap from header name to value. -/
structure HeaderMap where
  entries : List (String × String)
deriving DecidableEq, Repr

/-- `HeaderMap::get_all(name)`: all values stored under `name`, in order. -/
def HeaderMap.get_all (h : HeaderMap) (name : String) : List String :=
  (h.entries.filter fun e => e.1 == name).map Prod.snd

/-- `HeaderMap::get(name)`: the first value stored under `name`. -/
def HeaderMap.get (h : HeaderMap) (name : String) : Option String :=
  (h.get_all name).head?

/-- `HeaderMap::remove(name)`: removes every value stored under `name`. -/
def HeaderMap.remove (h : HeaderMap) (name : String) : HeaderMap :=
  ⟨h.entries.filter fun e => !(e.1 == name)⟩

def CONTENT_ENCODING : String := "content-encoding"

def TRANSFER_ENCODING : String := "transfer-encoding"

def CONTENT_LENGTH : String := "content-length"

/-- The io-level error type flowing between `BodyBytes`, the gzip decoder
and `Decoder::poll_next` (`std::io::Error`), keeping its origin: either a
transport error converted by `BodyBytes` (`err.into_io()`), or a
decompression failure raised by the gzip decoder. -/
inductive IoErr where
  | fromTransport (e : Nat)
  | fromDecode (code : Nat)
deriving DecidableEq, Repr

instance {ε α : Type} [DecidableEq ε] [DecidableEq α] : DecidableEq (Except ε α) := fun a b =>
  match a, b with
  | .ok x, .ok y =>
    if h : x = y then .isTrue (by rw [h]) else .isFalse (by intro hc; cases hc; exact h rfl)
  | .ok _, .error _ => .isFalse (by intro hc; cases hc)
  | .error _, .ok _ => .isFalse (by intro hc; cases hc)
  | .error x, .error y =>
    if h : x = y then .isTrue (by rw [h]) else .isFalse (by intro hc; cases hc; exact h rfl)

/-- Modelled from the spec: `crate::error::Error` is not under `src/`; per
§7 the error variant preserves enough information to distinguish a
transport fault from a malformed-payload fault. -/
inductive Error where
  | transport (e : Nat)
  | decode (code : Nat)
deriving DecidableEq, Repr

/-- Modelled from the spec: `crate::error::from_io` is not under `src/`; it
wraps an io error into `crate::error::Error` preserving its origin kind
(§7: "wrapped rather than interpreted"). -/
def from_io : IoErr → Error
  | .fromTransport e => .transport e
  | .fromDecode code => .decode code

/-- The result of one poll of an io-item stream (`BodyBytes` or its
peekable wrapper): pending, one `Result<Bytes, io::Error>` item, or
end-of-stream. -/
inductive PollRes where
  | pending
  | item (i : Except IoErr Chunk)
  | eos
deriving DecidableEq, Repr

/-- `impl Stream for BodyBytes`: forwards the body's poll result, converting
chunks into `Bytes` and transport errors into io errors via `into_io`. -/
def bodyBytesPoll : Body → PollRes × Body
  | [] => (.eos, [])
  | BodyEvent.notReady :: rest => (.pending, rest)
  | BodyEvent.chunk c :: rest => (.item (.ok c), rest)
  | BodyEvent.err e :: rest => (.item (.error (.fromTransport e)), rest)

/-- `futures::stream::Peekable<BodyBytes>`: the underlying stream plus the
cached item of a previous `peek`. -/
structure Peekable where
  peeked : Option (Except IoErr Chunk)
  stream : Body
deriving DecidableEq, Repr

/-- `Peekable::peek`: return the cached item if present, otherwise poll the
underlying stream and cache a yielded item. -/
def Peekable.peek (p : Peekable) : PollRes × Peekable :=
  match p.peeked with
  | some it => (.item it, p)
  | none =>
    match bodyBytesPoll p.stream with
    | (.pending, rest) => (.pending, ⟨none, rest⟩)
    | (.item it, rest) => (.item it, ⟨some it, rest⟩)
    | (.eos, rest) => (.eos, ⟨none, rest⟩)

/-- `Peekable::poll_next`: yield the cached item if present, otherwise poll
the underlying stream. -/
def Peekable.pollNext (p : Peekable) : PollRes × Peekable :=
  match p.peeked with
  | some it => (.item it, ⟨none, p.stream⟩)
  | none =>
    match bodyBytesPoll p.stream with
    | (r, rest) => (r, ⟨none, rest⟩)

/-- The external incremental decompressor driven by
`async_compression::stream::GzipDecoder`, abstracted over its internal
state `σ`: `feed` consumes one input chunk and emits output bytes or a
decode failure; `finish` flushes the final output at end of input;
`compress` is the matching compressor (used only to state round-trips). -/
structure Codec (σ : Type) where
  init : σ
  feed : σ → Chunk → Except Nat (σ × Chunk)
  finish : σ → Except Nat Chunk
  compress : List Nat → List Nat

/-- State of `GzipDecoder<Peekable<BodyBytes>>`: decompressor state, the
owned peekable stream, and whether the final flush already happened. -/
structure GzipState (σ : Type) where
  st : σ
  inner : Peekable
  done : Bool

/-- `enum Inner`: the decoder's variant. -/
inductive Inner (σ : Type) where
  | plainText (body : Body)
  | gzip (g : GzipState σ)
  | pending (p : Peekable)

/-- `Decoder::plain_text`. -/
def plain_text (σ : Type) (body : Body) : Inner σ :=
  .plainText body

/-- `Decoder::gzip`: starts in the `Pending` variant over a fresh peekable
wrapper of the body. -/
def gzip_ctor (σ : Type) (body : Body) : Inner σ :=
  .pending ⟨none, body⟩

/-- `Decoder::detect`: inspects `Content-Encoding` / `Transfer-Encoding` /
`Content-Length` and returns the initial variant together with the mutated
header map. -/
def detect (σ : Type) (headers : HeaderMap) (body : Body) (check_gzip : Bool) :
    Inner σ × HeaderMap :=
  if check_gzip = false then (plain_text σ body, headers) else
  let content_encoding_gzip := (headers.get_all CONTENT_ENCODING).any fun enc => enc == "gzip"
  let is_gzip₀ := content_encoding_gzip
    || (headers.get_all TRANSFER_ENCODING).any fun enc => enc == "gzip"
  let is_gzip :=
    if is_gzip₀ then
      match headers.get CONTENT_LENGTH with
      | some content_length => if content_length == "0" then false else true
      | none => true
    else false
  let headers₁ :=
    if content_encoding_gzip then
      (headers.remove CONTENT_ENCODING).remove CONTENT_LENGTH
    else headers
  if is_gzip then (gzip_ctor σ body, headers₁) else (plain_text σ body, headers₁)

/-- The result of one poll of `impl Future for Pending`: still waiting on
the underlying stream, a terminal io error, the resolved variant, or the
source's `expect("just peeked Some")` panic (provably unreachable). -/
inductive PendRes (σ : Type) where
  | pending
  | failed (e : IoErr)
  | ready (v : Inner σ)
  | panicked

/-- `impl Future for Pending`: peek the stream once; an error is consumed
for real by one more `poll_next` and propagated; end-of-stream resolves to
`PlainText` over an empty body; a chunk resolves to `Gzip` over the same
peekable stream (taken by `mem::replace`, which leaves an empty peekable
behind). -/
def pendingPoll (σ : Type) (c : Codec σ) (p : Peekable) : PendRes σ × Peekable :=
  match p.peek with
  | (.pending, p₁) => (.pending, p₁)
  | (.item (.error _), p₁) =>
    match p₁.pollNext with
    | (.item (.error e), p₂) => (.failed e, p₂)
    | (_, p₂) => (.panicked, p₂)
  | (.eos, p₁) => (.ready (.plainText []), p₁)
  | (.item (.ok _), p₁) => (.ready (.gzip ⟨c.init, p₁, false⟩), ⟨none, []⟩)

/-- One poll of `GzipDecoder<Peekable<BodyBytes>>`: forward pendings and io
errors from the inner stream, feed yielded chunks to the decompressor, and
flush the final output once the inner stream ends. -/
def gzipPoll (σ : Type) (c : Codec σ) : GzipState σ → PollRes × GzipState σ
  | ⟨s, p, true⟩ => (.eos, ⟨s, p, true⟩)
  | ⟨s, p, false⟩ =>
    match p.pollNext with
    | (.pending, p₁) => (.pending, ⟨s, p₁, false⟩)
    | (.item (.error e), p₁) => (.item (.error e), ⟨s, p₁, false⟩)
    | (.item (.ok ch), p₁) =>
      match c.feed s ch with
      | .ok (s₁, out) => (.item (.ok out), ⟨s₁, p₁, false⟩)
      | .error code => (.item (.error (.fromDecode code)), ⟨s, p₁, true⟩)
    | (.eos, p₁) =>
      match c.finish s with
      | .ok fin => (.item (.ok fin), ⟨s, p₁, true⟩)
      | .error code => (.item (.error (.fromDecode code)), ⟨s, p₁, true⟩)

/-- The result of one poll of `impl Stream for Decoder`, as seen by the
caller: pending, one data chunk, one terminal error, end-of-stream, or a
panic inside the poll (provably unreachable). -/
inductive DecPoll where
  | pending
  | data (ch : Chunk)
  | fail (e : Error)
  | eos
  | panicked
deriving DecidableEq, Repr

/-- `Decoder::poll_next` restricted to a resolved variant (`PlainText` or
`Gzip`): the `PlainText` arm forwards the body's items unchanged (its
errors already are `crate::error::Error` transport errors); the `Gzip` arm
maps the decompressor's io errors through `crate::error::from_io`. -/
def pollResolved (σ : Type) (c : Codec σ) : Inner σ → DecPoll × Inner σ
  | .plainText [] => (.eos, .plainText [])
  | .plainText (BodyEvent.notReady :: rest) => (.pending, .plainText rest)
  | .plainText (BodyEvent.chunk ch :: rest) => (.data ch, .plainText rest)
  | .plainText (BodyEvent.err e :: rest) => (.fail (.transport e), .plainText rest)
  | .gzip g =>
    match gzipPoll σ c g with
    | (.pending, g₁) => (.pending, .gzip g₁)
    | (.item (.ok bytes), g₁) => (.data bytes, .gzip g₁)
    | (.item (.error e), g₁) => (.fail (from_io e), .gzip g₁)
    | (.eos, g₁) => (.eos, .gzip g₁)
  | .pending p => (.pending, .pending p)

/-- `impl Stream for Decoder`: a `Pending` variant drives the resolver; on
completion the variant is replaced in place and the same poll is
immediately re-dispatched to the new variant; resolved variants delegate
directly. -/
def pollNext (σ : Type) (c : Codec σ) : Inner σ → DecPoll × Inner σ
  | .pending p =>
    match pendingPoll σ c p with
    | (.pending, p₁) => (.pending, .pending p₁)
    | (.failed e, p₁) => (.fail (from_io e), .pending p₁)
    | (.panicked, p₁) => (.panicked, .pending p₁)
    | (.ready v, _) => pollResolved σ c v
  | .plainText b => pollResolved σ c (.plainText b)
  | .gzip g => pollResolved σ c (.gzip g)

/-- The caller's drive loop: poll the decoder repeatedly, collecting the
outcomes, stopping at end-of-stream or at a terminal error (§7: after an
error item the stream is treated as terminated).  `fuel` bounds the number
of polls. -/
def run (σ : Type) (c : Codec σ) : Nat → Inner σ → List DecPoll
  | 0, _ => []
  | fuel + 1, inner =>
    match pollNext σ c inner with
    | (.eos, _) => [.eos]
    | (.fail e, _) => [.fail e]
    | (.panicked, _) => [.panicked]
    | (o, inner₁) => o :: run σ c fuel inner₁

/-- The data chunks among a run's outcomes, in order. -/
def outData : List DecPoll → List Chunk
  | [] => []
  | DecPoll.data ch :: rest => ch :: outData rest
  | _ :: rest => outData rest

/-- The error items among a run's outcomes, in order. -/
def outFails : List DecPoll → List Error
  | [] => []
  | DecPoll.fail e :: rest => e :: outFails rest
  | _ :: rest => outFails rest

/-- How many end-of-stream signals a run's outcomes contain. -/
def eosCount : List DecPoll → Nat
  | [] => 0
  | DecPoll.eos :: rest => eosCount rest + 1
  | _ :: rest => eosCount rest

/-- Concatenation of a list of chunks. -/
def joinChunks (l : List Chunk) : List Nat :=
  l.flatten

/-- The data chunks of a body schedule, in order. -/
def bodyChunks : Body → List Chunk
  | [] => []
  | BodyEvent.chunk ch :: rest => ch :: bodyChunks rest
  | _ :: rest => bodyChunks rest

/-- Whether a body schedule contains no transport error. -/
def errFree : Body → Bool
  | [] => true
  | BodyEvent.err _ :: _ => false
  | _ :: rest => errFree rest

section StepLemmas

theorem run_plain_nil (σ : Type) (c : Codec σ) (n : Nat) :
    run σ c (n + 1) (.plainText []) = [.eos] := rfl

theorem run_plain_notReady (σ : Type) (c : Codec σ) (n : Nat) (r : Body) :
    run σ c (n + 1) (.plainText (BodyEvent.notReady :: r)) =
      .pending :: run σ c n (.plainText r) := rfl

theorem run_plain_chunk (σ : Type) (c : Codec σ) (n : Nat) (ch : Chunk) (r : Body) :
    run σ c (n + 1) (.plainText (BodyEvent.chunk ch :: r)) =
      .data ch :: run σ c n (.plainText r) := rfl

theorem run_plain_err (σ : Type) (c : Codec σ) (n : Nat) (e : Nat) (r : Body) :
    run σ c (n + 1) (.plainText (BodyEvent.err e :: r)) = [.fail (.transport e)] := rfl

theorem run_pending_nil (σ : Type) (c : Codec σ) (n : Nat) :
    run σ c (n + 1) (.pending ⟨none, []⟩) = [.eos] := rfl

theorem run_pending_notReady (σ : Type) (c : Codec σ) (n : Nat) (r : Body) :
    run σ c (n + 1) (.pending ⟨none, BodyEvent.notReady :: r⟩) =
      .pending :: run σ c n (.pending ⟨none, r⟩) := rfl

theorem run_pending_err (σ : Type) (c : Codec σ) (n : Nat) (e : Nat) (r : Body) :
    run σ c (n + 1) (.pending ⟨none, BodyEvent.err e :: r⟩) =
      [.fail (.transport e)] := rfl

theorem run_gzip_done (σ : Type) (c : Codec σ) (n : Nat) (s : σ) (p : Peekable) :
    run σ c (n + 1) (.gzip ⟨s, p, true⟩) = [.eos] := rfl

theorem run_gzip_notReady (σ : Type) (c : Codec σ) (n : Nat) (s : σ) (r : Body) :
    run σ c (n + 1) (.gzip ⟨s, ⟨none, BodyEvent.notReady :: r⟩, false⟩) =
      .pending :: run σ c n (.gzip ⟨s, ⟨none, r⟩, false⟩) := rfl

theorem run_gzip_transport_err (σ : Type) (c : Codec σ) (n : Nat) (s : σ) (e : Nat)
    (r : Body) :
    run σ c (n + 1) (.gzip ⟨s, ⟨none, BodyEvent.err e :: r⟩, false⟩) =
      [.fail (.transport e)] := rfl

theorem run_gzip_feed_cached (σ : Type) (c : Codec σ) (n : Nat) (s : σ) (ch : Chunk)
    (r : Body) (s₁ : σ) (out : Chunk) (hf : c.feed s ch = .ok (s₁, out)) :
    run σ c (n + 1) (.gzip ⟨s, ⟨some (.ok ch), r⟩, false⟩) =
      .data out :: run σ c n (.gzip ⟨s₁, ⟨none, r⟩, false⟩) := by
  simp only [run, pollNext, pollResolved, gzipPoll, Peekable.pollNext, hf]

theorem run_gzip_feed (σ : Type) (c : Codec σ) (n : Nat) (s : σ) (ch : Chunk)
    (r : Body) (s₁ : σ) (out : Chunk) (hf : c.feed s ch = .ok (s₁, out)) :
    run σ c (n + 1) (.gzip ⟨s, ⟨none, BodyEvent.chunk ch :: r⟩, false⟩) =
      .data out :: run σ c n (.gzip ⟨s₁, ⟨none, r⟩, false⟩) := by
  simp only [run, pollNext, pollResolved, gzipPoll, Peekable.pollNext, bodyBytesPoll, hf]

theorem run_gzip_feed_err (σ : Type) (c : Codec σ) (n : Nat) (s : σ) (ch : Chunk)
    (r : Body) (code : Nat) (hf : c.feed s ch = .error code) :
    run σ c (n + 1) (.gzip ⟨s, ⟨none, BodyEvent.chunk ch :: r⟩, false⟩) =
      [.fail (.decode code)] := by
  simp only [run, pollNext, pollResolved, gzipPoll, Peekable.pollNext, bodyBytesPoll, hf,
    from_io]

theorem run_gzip_finish (σ : Type) (c : Codec σ) (n : Nat) (s : σ) (fin : Chunk)
    (hfin : c.finish s = .ok fin) :
    run σ c (n + 1 + 1) (.gzip ⟨s, ⟨none, []⟩, false⟩) = [.data fin, .eos] := by
  have h1 : run σ c (n + 1 + 1) (.gzip ⟨s, ⟨none, []⟩, false⟩) =
      .data fin :: run σ c (n + 1) (.gzip ⟨s, ⟨none, []⟩, true⟩) := by
    simp only [run, pollNext, pollResolved, gzipPoll, Peekable.pollNext, bodyBytesPoll, hfin]
  rw [h1, run_gzip_done]

end StepLemmas

/-- Feeding a whole list of chunks to the decompressor in order,
concatenating the emitted output. -/
def runFeed (σ : Type) (c : Codec σ) : σ → List Chunk → Except Nat (σ × List Nat)
  | s, [] => .ok (s, [])
  | s, ch :: rest =>
    match c.feed s ch with
    | .error code => .error code
    | .ok (s₁, out₁) =>
      match runFeed σ c s₁ rest with
      | .error code => .error code
      | .ok (s₂, out₂) => .ok (s₂, out₁ ++ out₂)

/-- The documented contract of the external gzip codec: compressed output
is never empty (a gzip stream carries at least its header), and feeding any
chunking of `compress data` through the decompressor reproduces `data`
exactly. -/
def Codec.Correct (σ : Type) (c : Codec σ) : Prop :=
  (∀ data : List Nat, c.compress data ≠ []) ∧
  (∀ (data : List Nat) (cs : List Chunk), joinChunks cs = c.compress data →
    ∃ (s : σ) (out : List Nat) (fin : Chunk),
      runFeed σ c c.init cs = .ok (s, out) ∧ c.finish s = .ok fin ∧ out ++ fin = data)

/-- Feed step of `markerCodec`: drop the single marker byte that its
compressor prepends, pass everything else through. -/
def markerFeed : Bool → Chunk → Bool × Chunk
  | false, [] => (false, [])
  | false, _ :: bs => (true, bs)
  | true, ch => (true, ch)

/-- A trivially correct concrete codec used to instantiate the abstract
gzip interface in witnesses: compression prepends one marker byte. -/
def markerCodec : Codec Bool where
  init := false
  feed := fun s ch => .ok (markerFeed s ch)
  finish := fun _ => .ok []
  compress := fun data => 0 :: data

/-- A codec whose decompressor rejects every chunk, used to exercise the
malformed-payload error path in witnesses. -/
def failCodec : Codec Unit where
  init := ()
  feed := fun _ _ => .error 7
  finish := fun _ => .error 7
  compress := fun data => 0 :: data

theorem markerCodec_feed (s : Bool) (ch : Chunk) :
    markerCodec.feed s ch = .ok (markerFeed s ch) := rfl

theorem runFeed_marker_true (cs : List Chunk) :
    runFeed Bool markerCodec true cs = .ok (true, joinChunks cs) := by
  induction cs with
  | nil => rfl
  | cons ch rest ih =>
    simp only [runFeed, markerCodec_feed, markerFeed, ih, joinChunks, List.flatten_cons]

theorem runFeed_marker_false (cs : List Chunk) :
    ∃ s : Bool, runFeed Bool markerCodec false cs = .ok (s, (joinChunks cs).tail) := by
  induction cs with
  | nil => exact ⟨false, rfl⟩
  | cons ch rest ih =>
    cases ch with
    | nil =>
      obtain ⟨s, hs⟩ := ih
      exact ⟨s, by simp only [runFeed, markerCodec_feed, markerFeed, hs, joinChunks,
        List.flatten_cons, List.nil_append]⟩
    | cons b bs =>
      refine ⟨true, ?_⟩
      simp only [runFeed, markerCodec_feed, markerFeed, runFeed_marker_true, joinChunks,
        List.flatten_cons, List.cons_append, List.tail_cons]

theorem markerCodec_correct : Codec.Correct Bool markerCodec := by
  constructor
  · intro data h
    exact List.noConfusion h
  · intro data cs hcs
    obtain ⟨s, hs⟩ := runFeed_marker_false cs
    refine ⟨s, (joinChunks cs).tail, [], hs, rfl, ?_⟩
    rw [hcs]
    simp [markerCodec]

section HeaderLemmas

theorem get_all_remove_self (h : HeaderMap) (n : String) :
    (h.remove n).get_all n = [] := by
  unfold HeaderMap.remove HeaderMap.get_all
  simp [List.filter_filter, Bool.and_not_self]

theorem get_all_remove_ne (h : HeaderMap) (n m : String) (hnm : m ≠ n) :
    (h.remove n).get_all m = h.get_all m := by
  unfold HeaderMap.remove HeaderMap.get_all
  simp only [List.filter_filter]
  congr 1
  apply List.filter_congr
  intro a _
  by_cases ham : a.1 = m
  · have han : (a.1 == n) = false := beq_false_of_ne (by rw [ham]; exact hnm)
    simp [ham, han, hnm]
  · simp [beq_false_of_ne ham]

end HeaderLemmas

section OutcomeLemmas

theorem outData_pendings_eos (n : Nat) :
    outData (List.replicate n DecPoll.pending ++ [DecPoll.eos]) = [] := by
  induction n with
  | zero => rfl
  | succ n ih => simpa [List.replicate_succ, outData] using ih

theorem outFails_pendings_eos (n : Nat) :
    outFails (List.replicate n DecPoll.pending ++ [DecPoll.eos]) = [] := by
  induction n with
  | zero => rfl
  | succ n ih => simpa [List.replicate_succ, outFails] using ih

theorem eosCount_pendings_eos (n : Nat) :
    eosCount (List.replicate n DecPoll.pending ++ [DecPoll.eos]) = 1 := by
  induction n with
  | zero => rfl
  | succ n ih => simpa [List.replicate_succ, eosCount] using ih

end OutcomeLemmas

/-- C1: with detection enabled, whenever some `Content-Encoding` value is
"gzip" and `Content-Length` is absent or its first value is not the literal
"0", `Decoder::detect` selects the gzip (decompression) variant and removes
every `Content-Encoding` and `Content-Length` entry from the headers. -/
theorem detect_gzip_selects_and_removes (σ : Type) (h : HeaderMap) (b : Body)
    (hce : "gzip" ∈ h.get_all CONTENT_ENCODING)
    (hcl : h.get CONTENT_LENGTH ≠ some "0") :
    (detect σ h b true).1 = gzip_ctor σ b ∧
    (detect σ h b true).2.get_all CONTENT_ENCODING = [] ∧
    (detect σ h b true).2.get_all CONTENT_LENGTH = [] := by
  have hceb : ((h.get_all CONTENT_ENCODING).any fun enc => enc == "gzip") = true :=
    List.any_eq_true.mpr ⟨"gzip", hce, by simp⟩
  have hdet : detect σ h b true =
      (gzip_ctor σ b, (h.remove CONTENT_ENCODING).remove CONTENT_LENGTH) := by
    cases hclv : h.get CONTENT_LENGTH with
    | none => simp [detect, hceb, hclv]
    | some v =>
      have hv : v ≠ "0" := fun hv => hcl (hv ▸ hclv)
      simp [detect, hceb, hclv, hv]
  refine ⟨by rw [hdet], ?_, ?_⟩
  · rw [hdet, get_all_remove_ne _ _ _ (by decide), get_all_remove_self]
  · rw [hdet, get_all_remove_self]

/-- C1 witness: a concrete header set with `Content-Encoding: gzip` and a
nonzero `Content-Length`. -/
theorem detect_gzip_selects_and_removes_witness :
    (detect Unit ⟨[(CONTENT_ENCODING, "gzip"), (CONTENT_LENGTH, "120")]⟩ [] true).1 =
      gzip_ctor Unit [] ∧
    (detect Unit ⟨[(CONTENT_ENCODING, "gzip"), (CONTENT_LENGTH, "120")]⟩ [] true).2.get_all
      CONTENT_ENCODING = [] ∧
    (detect Unit ⟨[(CONTENT_ENCODING, "gzip"), (CONTENT_LENGTH, "120")]⟩ [] true).2.get_all
      CONTENT_LENGTH = [] :=
  detect_gzip_selects_and_removes Unit ⟨[(CONTENT_ENCODING, "gzip"), (CONTENT_LENGTH, "120")]⟩
    [] (by decide) (by decide)

/-- C2: with detection enabled, whenever some `Content-Encoding` value is
"gzip" but the first `Content-Length` value is the literal "0",
`Decoder::detect` does not select decompression (it returns the plaintext
variant), yet it still removes every `Content-Encoding` and
`Content-Length` entry, because removal depends on the `declared_gzip`
flag computed before the length-zero override. -/
theorem detect_zero_length_plaintext_still_removes (σ : Type) (h : HeaderMap) (b : Body)
    (hce : "gzip" ∈ h.get_all CONTENT_ENCODING)
    (hcl : h.get CONTENT_LENGTH = some "0") :
    (detect σ h b true).1 = plain_text σ b ∧
    (detect σ h b true).2.get_all CONTENT_ENCODING = [] ∧
    (detect σ h b true).2.get_all CONTENT_LENGTH = [] := by
  have hceb : ((h.get_all CONTENT_ENCODING).any fun enc => enc == "gzip") = true :=
    List.any_eq_true.mpr ⟨"gzip", hce, by simp⟩
  have hdet : detect σ h b true =
      (plain_text σ b, (h.remove CONTENT_ENCODING).remove CONTENT_LENGTH) := by
    simp [detect, hceb, hcl]
  refine ⟨by rw [hdet], ?_, ?_⟩
  · rw [hdet, get_all_remove_ne _ _ _ (by decide), get_all_remove_self]
  · rw [hdet, get_all_remove_self]

/-- C2 witness: `Content-Encoding: gzip` together with `Content-Length: 0`. -/
theorem detect_zero_length_plaintext_still_removes_witness :
    (detect Unit ⟨[(CONTENT_ENCODING, "gzip"), (CONTENT_LENGTH, "0")]⟩ [] true).1 =
      plain_text Unit [] ∧
    (detect Unit ⟨[(CONTENT_ENCODING, "gzip"), (CONTENT_LENGTH, "0")]⟩ [] true).2.get_all
      CONTENT_ENCODING = [] ∧
    (detect Unit ⟨[(CONTENT_ENCODING, "gzip"), (CONTENT_LENGTH, "0")]⟩ [] true).2.get_all
      CONTENT_LENGTH = [] :=
  detect_zero_length_plaintext_still_removes Unit
    ⟨[(CONTENT_ENCODING, "gzip"), (CONTENT_LENGTH, "0")]⟩ [] (by decide) (by decide)

/-- C3: with detection enabled, whenever some `Transfer-Encoding` value is
"gzip", no `Content-Encoding` value is "gzip", and the first
`Content-Length` value is not "0", `Decoder::detect` selects decompression
but leaves the header collection completely unmodified. -/
theorem detect_transfer_encoding_no_removal (σ : Type) (h : HeaderMap) (b : Body)
    (hte : "gzip" ∈ h.get_all TRANSFER_ENCODING)
    (hce : "gzip" ∉ h.get_all CONTENT_ENCODING)
    (hcl : h.get CONTENT_LENGTH ≠ some "0") :
    (detect σ h b true).1 = gzip_ctor σ b ∧ (detect σ h b true).2 = h := by
  have hteb : ((h.get_all TRANSFER_ENCODING).any fun enc => enc == "gzip") = true :=
    List.any_eq_true.mpr ⟨"gzip", hte, by simp⟩
  have hceb : ((h.get_all CONTENT_ENCODING).any fun enc => enc == "gzip") = false := by
    rw [List.any_eq_false]
    intro x hx hb
    exact hce (beq_iff_eq.mp hb ▸ hx)
  cases hclv : h.get CONTENT_LENGTH with
  | none => exact ⟨by simp [detect, hteb, hceb, hclv], by simp [detect, hteb, hceb, hclv]⟩
  | some v =>
    have hv : (v == "0") = false := beq_false_of_ne fun hv => hcl (hv ▸ hclv)
    exact ⟨by simp [detect, hteb, hceb, hclv, hv], by simp [detect, hteb, hceb, hclv, hv]⟩

/-- C3 witness: only `Transfer-Encoding: gzip` present. -/
theorem detect_transfer_encoding_no_removal_witness :
    (detect Unit ⟨[(TRANSFER_ENCODING, "gzip"), (CONTENT_LENGTH, "42")]⟩ [] true).1 =
      gzip_ctor Unit [] ∧
    (detect Unit ⟨[(TRANSFER_ENCODING, "gzip"), (CONTENT_LENGTH, "42")]⟩ [] true).2 =
      ⟨[(TRANSFER_ENCODING, "gzip"), (CONTENT_LENGTH, "42")]⟩ :=
  detect_transfer_encoding_no_removal Unit
    ⟨[(TRANSFER_ENCODING, "gzip"), (CONTENT_LENGTH, "42")]⟩ [] (by decide) (by decide)
    (by decide)

/-- C10: the length-zero override of `Decoder::detect` consults only the
first `Content-Length` value while gzip detection consults all
`Content-Encoding` and `Transfer-Encoding` values: whenever some value of
either encoding header is "gzip" and the FIRST `Content-Length` value is
not "0", decompression is selected — no matter what later `Content-Length`
entries (possibly "0") say. -/
theorem detect_first_content_length_governs (σ : Type) (h : HeaderMap) (b : Body)
    (v : String)
    (hgz : "gzip" ∈ h.get_all CONTENT_ENCODING ∨ "gzip" ∈ h.get_all TRANSFER_ENCODING)
    (hone : (h.get_all CONTENT_LENGTH).head? = some v) (hv : v ≠ "0") :
    (detect σ h b true).1 = gzip_ctor σ b := by
  have hcl : h.get CONTENT_LENGTH = some v := hone
  have hvb : (v == "0") = false := beq_false_of_ne hv
  cases hgz with
  | inl hce =>
    have hceb : ((h.get_all CONTENT_ENCODING).any fun enc => enc == "gzip") = true :=
      List.any_eq_true.mpr ⟨"gzip", hce, by simp⟩
    simp [detect, hceb, hcl, hvb]
  | inr hte =>
    have hteb : ((h.get_all TRANSFER_ENCODING).any fun enc => enc == "gzip") = true :=
      List.any_eq_true.mpr ⟨"gzip", hte, by simp⟩
    simp [detect, hteb, hcl, hvb]

/-- C10 witness: repeated `Content-Length` entries whose first value is
nonzero and whose second is "0": decompression is still selected. -/
theorem detect_first_content_length_governs_witness :
    (detect Unit
      ⟨[(CONTENT_LENGTH, "5"), (CONTENT_LENGTH, "0"), (CONTENT_ENCODING, "gzip")]⟩
      [] true).1 = gzip_ctor Unit [] :=
  detect_first_content_length_governs Unit
    ⟨[(CONTENT_LENGTH, "5"), (CONTENT_LENGTH, "0"), (CONTENT_ENCODING, "gzip")]⟩
    [] "5" (Or.inl (by decide)) (by decide) (by decide)

/-- C4: a decoder in the `Pending` state whose underlying body ends before
yielding any item (here: `n` not-ready polls and then end-of-stream)
resolves to the `PlainText` variant over an empty stream, and the
decoder's output stream yields zero data items, no error, and exactly one
end-of-stream signal. -/
theorem pending_empty_body_plaintext (σ : Type) (c : Codec σ) (n : Nat) :
    pendingPoll σ c ⟨none, []⟩ = (.ready (.plainText []), ⟨none, []⟩) ∧
    run σ c (n + 1) (.pending ⟨none, List.replicate n BodyEvent.notReady⟩) =
      List.replicate n DecPoll.pending ++ [DecPoll.eos] ∧
    outData (run σ c (n + 1) (.pending ⟨none, List.replicate n BodyEvent.notReady⟩)) = [] ∧
    outFails (run σ c (n + 1) (.pending ⟨none, List.replicate n BodyEvent.notReady⟩)) = [] ∧
    eosCount (run σ c (n + 1) (.pending ⟨none, List.replicate n BodyEvent.notReady⟩)) = 1 := by
  have hrun : ∀ m : Nat,
      run σ c (m + 1) (.pending ⟨none, List.replicate m BodyEvent.notReady⟩) =
        List.replicate m DecPoll.pending ++ [DecPoll.eos] := by
    intro m
    induction m with
    | zero => rfl
    | succ k ih =>
      rw [List.replicate_succ, run_pending_notReady, ih]
      simp [List.replicate_succ]
  exact ⟨rfl, hrun n, by rw [hrun n, outData_pendings_eos],
    by rw [hrun n, outFails_pendings_eos], by rw [hrun n, eosCount_pendings_eos]⟩

/-- C8: a decoder in the `Pending` state whose first peeked stream item is
an error consumes that same error by exactly one further `poll_next` of
the peekable stream (advancing it only past the error: the residual
peekable is `⟨none, r⟩`), and propagates it as the decoder's terminal
failure item, yielding no data items. -/
theorem pending_error_consumed_and_propagated (σ : Type) (c : Codec σ) (e : Nat)
    (r : Body) (n : Nat) :
    Peekable.peek ⟨none, BodyEvent.err e :: r⟩ =
      (.item (.error (.fromTransport e)), ⟨some (.error (.fromTransport e)), r⟩) ∧
    Peekable.pollNext ⟨some (.error (.fromTransport e)), r⟩ =
      (.item (.error (.fromTransport e)), ⟨none, r⟩) ∧
    pendingPoll σ c ⟨none, BodyEvent.err e :: r⟩ =
      (.failed (.fromTransport e), ⟨none, r⟩) ∧
    pollNext σ c (.pending ⟨none, BodyEvent.err e :: r⟩) =
      (.fail (.transport e), .pending ⟨none, r⟩) ∧
    run σ c (n + 1) (.pending ⟨none, BodyEvent.err e :: r⟩) = [.fail (.transport e)] ∧
    outData (run σ c (n + 1) (.pending ⟨none, BodyEvent.err e :: r⟩)) = [] :=
  ⟨rfl, rfl, rfl, rfl, rfl, rfl⟩

theorem pendingPoll_ready_shape (σ : Type) (c : Codec σ) :
    ∀ (p p₁ : Peekable) (v : Inner σ), pendingPoll σ c p = (.ready v, p₁) →
      v = .plainText [] ∨
      ∃ (ch : Chunk) (r : Body), v = .gzip ⟨c.init, ⟨some (.ok ch), r⟩, false⟩
  | ⟨some (.ok ch), s⟩, p₁, v, h => by
    simp only [pendingPoll, Peekable.peek, Prod.mk.injEq, PendRes.ready.injEq] at h
    exact Or.inr ⟨ch, s, h.1.symm⟩
  | ⟨some (.error e), s⟩, p₁, v, h => by
    simp only [pendingPoll, Peekable.peek, Peekable.pollNext] at h
    exact PendRes.noConfusion (congrArg Prod.fst h)
  | ⟨none, []⟩, p₁, v, h => by
    simp only [pendingPoll, Peekable.peek, bodyBytesPoll, Prod.mk.injEq,
      PendRes.ready.injEq] at h
    exact Or.inl h.1.symm
  | ⟨none, BodyEvent.notReady :: r⟩, p₁, v, h => by
    simp only [pendingPoll, Peekable.peek, bodyBytesPoll] at h
    exact PendRes.noConfusion (congrArg Prod.fst h)
  | ⟨none, BodyEvent.chunk ch :: r⟩, p₁, v, h => by
    simp only [pendingPoll, Peekable.peek, bodyBytesPoll, Prod.mk.injEq,
      PendRes.ready.injEq] at h
    exact Or.inr ⟨ch, r, h.1.symm⟩
  | ⟨none, BodyEvent.err e :: r⟩, p₁, v, h => by
    simp only [pendingPoll, Peekable.peek, Peekable.pollNext, bodyBytesPoll] at h
    exact PendRes.noConfusion (congrArg Prod.fst h)

/-- Whether a decoder variant is `PlainText`. -/
def isPlainText (σ : Type) : Inner σ → Bool
  | .plainText _ => true
  | _ => false

/-- Whether a decoder variant is `Gzip`. -/
def isGzip (σ : Type) : Inner σ → Bool
  | .gzip _ => true
  | _ => false

theorem pollResolved_ready_not_pending (σ : Type) (c : Codec σ) (p p₁ : Peekable)
    (v : Inner σ) (h : pendingPoll σ c p = (.ready v, p₁)) :
    (pollResolved σ c v).1 ≠ DecPoll.pending := by
  rcases pendingPoll_ready_shape σ c p p₁ v h with h1 | ⟨ch, r, h1⟩
  · subst h1
    simp [pollResolved]
  · subst h1
    simp only [pollResolved, gzipPoll, Peekable.pollNext]
    rcases hf : c.feed c.init ch with code | ⟨s₁, out⟩ <;> simp [hf]

/-- C5: the variant tag only ever transitions from `Pending` to
`PlainText` or `Gzip`, never in any other direction (a `PlainText`
decoder stays `PlainText` under every poll, a `Gzip` decoder stays
`Gzip`); and in the poll in which resolution completes, the decoder
re-dispatches the same poll to the new variant, whose result is never a
pending (no-data) result. -/
theorem decoder_state_transitions (σ : Type) (c : Codec σ) :
    (∀ b : Body, isPlainText σ (pollNext σ c (.plainText b)).2 = true) ∧
    (∀ g : GzipState σ, isGzip σ (pollNext σ c (.gzip g)).2 = true) ∧
    (∀ (p p₁ : Peekable) (v : Inner σ), pendingPoll σ c p = (.ready v, p₁) →
      pollNext σ c (.pending p) = pollResolved σ c v ∧
      (pollResolved σ c v).1 ≠ DecPoll.pending) := by
  refine ⟨?_, ?_, ?_⟩
  · intro b
    cases b with
    | nil => rfl
    | cons e r => cases e <;> rfl
  · intro g
    obtain ⟨r, g₁, hg⟩ : ∃ r g₁, gzipPoll σ c g = (r, g₁) := ⟨_, _, rfl⟩
    cases r with
    | pending => simp [pollNext, pollResolved, hg, isGzip]
    | eos => simp [pollNext, pollResolved, hg, isGzip]
    | item i => cases i <;> simp [pollNext, pollResolved, hg, isGzip]
  · intro p p₁ v h
    exact ⟨by simp [pollNext, h], pollResolved_ready_not_pending σ c p p₁ v h⟩

/-- C5 witness: a concrete resolution (first chunk `[0]`) re-dispatched to
the freshly constructed `Gzip` variant, with a non-pending result. -/
theorem decoder_state_transitions_witness :
    pollNext Bool markerCodec (.pending ⟨none, [BodyEvent.chunk [0]]⟩) =
      pollResolved Bool markerCodec (.gzip ⟨false, ⟨some (.ok [0]), []⟩, false⟩) ∧
    (pollResolved Bool markerCodec (.gzip ⟨false, ⟨some (.ok [0]), []⟩, false⟩)).1 ≠
      DecPoll.pending :=
  (decoder_state_transitions Bool markerCodec).2.2 ⟨none, [BodyEvent.chunk [0]]⟩ ⟨none, []⟩
    (.gzip ⟨false, ⟨some (.ok [0]), []⟩, false⟩) rfl

/-- C7: when decompression is not selected (`PlainText` variant), the
decoder's output stream yields exactly the input stream's chunks, in the
same order and with identical byte content, and no error; hence the
concatenated output bytes equal the concatenated input bytes. -/
theorem plaintext_passthrough (σ : Type) (c : Codec σ) (b : Body)
    (hb : errFree b = true) :
    outData (run σ c (b.length + 1) (.plainText b)) = bodyChunks b ∧
    outFails (run σ c (b.length + 1) (.plainText b)) = [] ∧
    joinChunks (outData (run σ c (b.length + 1) (.plainText b))) =
      joinChunks (bodyChunks b) := by
  have main : ∀ b : Body, errFree b = true →
      outData (run σ c (b.length + 1) (.plainText b)) = bodyChunks b ∧
      outFails (run σ c (b.length + 1) (.plainText b)) = [] := by
    intro b
    induction b with
    | nil => exact fun _ => ⟨rfl, rfl⟩
    | cons e r ih =>
      intro hber
      cases e with
      | notReady =>
        obtain ⟨h1, h2⟩ := ih (by simpa [errFree] using hber)
        simp only [List.length_cons, run_plain_notReady]
        exact ⟨by simpa [outData, bodyChunks] using h1, by simpa [outFails] using h2⟩
      | chunk ch =>
        obtain ⟨h1, h2⟩ := ih (by simpa [errFree] using hber)
        simp only [List.length_cons, run_plain_chunk]
        exact ⟨by simpa [outData, bodyChunks] using h1, by simpa [outFails] using h2⟩
      | err e => exact absurd hber (by simp [errFree])
  obtain ⟨h1, h2⟩ := main b hb
  exact ⟨h1, h2, by rw [h1]⟩

/-- C7 witness: a three-event plaintext body (two chunks around one
not-ready poll) passes through unchanged. -/
theorem plaintext_passthrough_witness :
    outData (run Bool markerCodec 4
      (.plainText [BodyEvent.chunk [1, 2], BodyEvent.notReady, BodyEvent.chunk [3]])) =
      bodyChunks [BodyEvent.chunk [1, 2], BodyEvent.notReady, BodyEvent.chunk [3]] ∧
    outFails (run Bool markerCodec 4
      (.plainText [BodyEvent.chunk [1, 2], BodyEvent.notReady, BodyEvent.chunk [3]])) = [] ∧
    joinChunks (outData (run Bool markerCodec 4
      (.plainText [BodyEvent.chunk [1, 2], BodyEvent.notReady, BodyEvent.chunk [3]]))) =
      joinChunks (bodyChunks [BodyEvent.chunk [1, 2], BodyEvent.notReady,
        BodyEvent.chunk [3]]) :=
  plaintext_passthrough Bool markerCodec
    [BodyEvent.chunk [1, 2], BodyEvent.notReady, BodyEvent.chunk [3]] rfl

/-- C9: every error the decoder emits preserves its origin kind: the
spec-modelled `crate::error::from_io` maps transport-originated io errors
and decompression-originated io errors to distinct `Error` values, and on
the gzip path the decoder emits a transport-tagged failure for an
underlying stream error and a decode-tagged failure for a decompression
failure. -/
theorem error_origin_distinguishable (σ : Type) (c : Codec σ) :
    (∀ t d : Nat, from_io (.fromTransport t) ≠ from_io (.fromDecode d)) ∧
    (∀ t : Nat, from_io (.fromTransport t) = .transport t) ∧
    (∀ d : Nat, from_io (.fromDecode d) = .decode d) ∧
    (∀ (s : σ) (e : Nat) (r : Body),
      pollNext σ c (.gzip ⟨s, ⟨none, BodyEvent.err e :: r⟩, false⟩) =
        (.fail (.transport e), .gzip ⟨s, ⟨none, r⟩, false⟩)) ∧
    (∀ (s : σ) (ch : Chunk) (r : Body) (code : Nat), c.feed s ch = .error code →
      pollNext σ c (.gzip ⟨s, ⟨none, BodyEvent.chunk ch :: r⟩, false⟩) =
        (.fail (.decode code), .gzip ⟨s, ⟨none, r⟩, true⟩)) := by
  refine ⟨?_, fun t => rfl, fun d => rfl, fun s e r => rfl, ?_⟩
  · intro t d h
    simp [from_io] at h
  · intro s ch r code hf
    simp only [pollNext, pollResolved, gzipPoll, Peekable.pollNext, bodyBytesPoll, hf,
      from_io]

/-- C9 witness: a decompression failure (code 7) emitted through the gzip
path as a decode-tagged failure. -/
theorem error_origin_distinguishable_witness :
    pollNext Unit failCodec (.gzip ⟨(), ⟨none, [BodyEvent.chunk [1]]⟩, false⟩) =
      (.fail (.decode 7), .gzip ⟨(), ⟨none, []⟩, true⟩) :=
  (error_origin_distinguishable Unit failCodec).2.2.2.2 () [1] [] 7 rfl

theorem run_pending_first_chunk (σ : Type) (c : Codec σ) (n : Nat) (ch : Chunk)
    (r : Body) (s₁ : σ) (out : Chunk) (hf : c.feed c.init ch = .ok (s₁, out)) :
    run σ c (n + 1) (.pending ⟨none, BodyEvent.chunk ch :: r⟩) =
      .data out :: run σ c n (.gzip ⟨s₁, ⟨none, r⟩, false⟩) := by
  simp only [run, pollNext, pendingPoll, Peekable.peek, bodyBytesPoll, pollResolved,
    gzipPoll, Peekable.pollNext, hf]

theorem outData_data_cons (ch : Chunk) (l : List DecPoll) :
    outData (DecPoll.data ch :: l) = ch :: outData l := rfl

theorem joinChunks_cons (ch : Chunk) (l : List Chunk) :
    joinChunks (ch :: l) = ch ++ joinChunks l := rfl

theorem run_gzip_feeds (σ : Type) (c : Codec σ) :
    ∀ (cs : List Chunk) (s s₂ : σ) (out : List Nat) (fin : Chunk),
      runFeed σ c s cs = .ok (s₂, out) → c.finish s₂ = .ok fin →
      joinChunks (outData (run σ c (cs.length + 1 + 1)
        (.gzip ⟨s, ⟨none, cs.map BodyEvent.chunk⟩, false⟩))) = out ++ fin := by
  intro cs
  induction cs with
  | nil =>
    intro s s₂ out fin hrf hfin
    simp only [runFeed, Except.ok.injEq, Prod.mk.injEq] at hrf
    obtain ⟨hs, hout⟩ := hrf
    subst hs
    subst hout
    rw [List.length_nil, List.map_nil, run_gzip_finish σ c 0 s fin hfin]
    simp [outData, joinChunks]
  | cons ch rest ih =>
    intro s s₂ out fin hrf hfin
    rcases hf : c.feed s ch with code | ⟨s₁, out₁⟩
    · simp only [runFeed, hf] at hrf
      exact Except.noConfusion hrf
    · simp only [runFeed, hf] at hrf
      rcases hr : runFeed σ c s₁ rest with code | ⟨s₃, out₂⟩
      · simp only [hr] at hrf
        exact Except.noConfusion hrf
      · simp only [hr, Except.ok.injEq, Prod.mk.injEq] at hrf
        obtain ⟨hs, hout⟩ := hrf
        subst hs
        rw [List.length_cons, List.map_cons, run_gzip_feed σ c _ s ch _ s₁ out₁ hf,
          outData_data_cons, joinChunks_cons, ih s₁ s₃ out₂ fin hr hfin, ← hout,
          List.append_assoc]

/-- C6: round-trip through the decoder.  For any codec satisfying the
external gzip contract, compressing a byte sequence, chunking the
compressed bytes arbitrarily into input stream items, and feeding them to
a decoder constructed with gzip detection selected (`Decoder::gzip`, the
`Pending` variant) yields an output stream whose concatenated bytes equal
the original sequence exactly. -/
theorem gzip_roundtrip (σ : Type) (c : Codec σ) (hc : Codec.Correct σ c)
    (data : List Nat) (cs : List Chunk) (hcs : joinChunks cs = c.compress data) :
    joinChunks (outData (run σ c (cs.length + 1 + 1)
      (gzip_ctor σ (cs.map BodyEvent.chunk)))) = data := by
  obtain ⟨hne, hrt⟩ := hc
  obtain ⟨s₂, out, fin, hrf, hfin, hdata⟩ := hrt data cs hcs
  cases cs with
  | nil => exact absurd (by rw [← hcs]; rfl) (hne data)
  | cons ch rest =>
    rcases hf : c.feed c.init ch with code | ⟨s₁, out₁⟩
    · simp only [runFeed, hf] at hrf
      exact Except.noConfusion hrf
    · simp only [runFeed, hf] at hrf
      rcases hr : runFeed σ c s₁ rest with code | ⟨s₃, out₂⟩
      · simp only [hr] at hrf
        exact Except.noConfusion hrf
      · simp only [hr, Except.ok.injEq, Prod.mk.injEq] at hrf
        obtain ⟨hs, hout⟩ := hrf
        subst hs
        rw [List.length_cons, List.map_cons, gzip_ctor,
          run_pending_first_chunk σ c _ ch _ s₁ out₁ hf, outData_data_cons,
          joinChunks_cons, run_gzip_feeds σ c rest s₁ s₃ out₂ fin hr hfin, ← hdata,
          ← hout, List.append_assoc]

/-- C6 witness: data `[5, 6]` compressed by the marker codec to
`[0, 5, 6]`, delivered as the two chunks `[0, 5]` and `[6]`, decodes back
to `[5, 6]`. -/
theorem gzip_roundtrip_witness :
    joinChunks (outData (run Bool markerCodec 4
      (gzip_ctor Bool ([[0, 5], [6]].map BodyEvent.chunk)))) = [5, 6] :=
  gzip_roundtrip Bool markerCodec markerCodec_correct [5, 6] [[0, 5], [6]] rfl

end ReqwestDecoder
